import Mathlib

/-!
# Task store and view deriver of the todo application

Shallow embedding of the task-list state management in `src/App.tsx`:
the `Todo` data model, the mutation operations (`addTodo`, `saveEdit`,
`handleDrop`), persistence (`JSON.stringify` / hydration from
`localStorage`), the view sort of `filteredAndSortedTodos`, and the
derived statistics.

Conventions of the embedding:
* JavaScript numbers that the program uses as integers (ids, millisecond
  timestamps, priority ranks) are modelled as `Int`.
* A JavaScript `Date` is modelled by its millisecond timestamp (`Int`).
  `Date.prototype.toJSON` followed by `new Date (s)` is the identity at
  millisecond precision, so a serialized timestamp is represented by the
  millisecond value it denotes.
* Optional fields (`dueDate?`, `notes?`) are `Option`; `undefined` is
  `none`.  `JSON.stringify` omits `undefined` fields.
* `Array.prototype.sort` (stable per ES2019) with comparator `c` is
  modelled by the stable insertion sort `jsSort c`; for a consistent
  comparator every stable sort produces the same output.
-/

/-- The `priority` union type `"low" | "medium" | "high"`. -/
inductive Priority where
  | low
  | medium
  | high
deriving DecidableEq, Repr

/-- The rank table `{ high: 3, medium: 2, low: 1 }` used by the priority
comparator in `filteredAndSortedTodos`. -/
def rank : Priority → Int
  | .high => 3
  | .medium => 2
  | .low => 1

/-- The string form of a priority, as it is stored in JSON. -/
def priorityToString : Priority → String
  | .low => "low"
  | .medium => "medium"
  | .high => "high"

/-- The union `type FilterType = "all" | "active" | "completed"`. -/
inductive FilterType where
  | all
  | active
  | completed
deriving DecidableEq, Repr

/-- The union `type SortType = "created" | "priority" | "dueDate" | "alphabetical"`. -/
inductive SortType where
  | created
  | priority
  | dueDate
  | alphabetical
deriving DecidableEq, Repr

/-- The `Todo` interface.  `createdAt : Date` is the millisecond
timestamp; `dueDate` is the `"YYYY-MM-DD"` string of the date input. -/
structure Todo where
  id : Int
  text : String
  completed : Bool
  priority : Priority
  category : String
  dueDate : Option String
  createdAt : Int
  notes : Option String
deriving DecidableEq, Repr

/-- The WhiteSpace and LineTerminator characters trimmed by
`String.prototype.trim` (the common ones; exotic `Zs` members behave the
same way and never reach the store). -/
def jsWhitespace (ch : Char) : Bool :=
  ch = ' ' || ch = '\t' || ch = '\n' || ch = '\r' || ch = '\x0b' ||
    ch = '\x0c' || ch = '\u00A0' || ch = '\uFEFF' || ch = '\u2028' || ch = '\u2029'

/-- The platform `String.prototype.trim`, over the character list of the string. -/
def jsTrim (s : String) : String :=
  ⟨((s.data.dropWhile jsWhitespace).reverse.dropWhile jsWhitespace).reverse⟩

/-- Does the first list start with the second?  Helper for the substring test. -/
def startsWithChars : List Char → List Char → Bool
  | _, [] => true
  | [], _ :: _ => false
  | a :: as, b :: bs => b == a && startsWithChars as bs

/-- Substring test over character lists, for `String.prototype.includes`. -/
def containsChars : List Char → List Char → Bool
  | [], pat => startsWithChars [] pat
  | l@(_ :: t), pat => startsWithChars l pat || containsChars t pat

/-- The platform `haystack.includes(needle)`. -/
def jsIncludes (haystack needle : String) : Bool :=
  containsChars haystack.data needle.data

/-- The platform `String.prototype.toLowerCase` (modelled by code-point
lowercasing of the character list; the search filter lower-cases both
sides, so only agreement matters). -/
def jsToLower (s : String) : String := ⟨s.data.map Char.toLower⟩

/-- One invocation of `addTodo`, as a function of the component state it
reads: the form fields and the clock.  `now` models both clock reads
(`Date.now()` for `id` and `new Date()` for `createdAt`) of the single
synchronous call.  Mirrors:

when `input.trim() === ""` the call returns without creating a task;
otherwise the new todo `{ id: Date.now(), text: input.trim(),
completed: false, priority, category: selectedCategory || newCategory,
dueDate: dueDate || undefined, createdAt: new Date(), notes:
notes || undefined }` is prepended (`[newTodo, ...todos]`). -/
def addTodo (todos : List Todo) (input : String) (priority : Priority)
    (selectedCategory newCategory dueDate notes : String) (now : Int) : List Todo :=
  if jsTrim input = "" then todos
  else
    { id := now
      text := jsTrim input
      completed := false
      priority := priority
      category := if selectedCategory = "" then newCategory else selectedCategory
      dueDate := if dueDate = "" then none else some dueDate
      createdAt := now
      notes := if notes = "" then none else some notes } :: todos

/-- The state read by one `addTodo` call: the form fields and the value
of the clock at the moment of the call. -/
structure AddCall where
  input : String
  priority : Priority
  selectedCategory : String
  newCategory : String
  dueDate : String
  notes : String
  now : Int
deriving DecidableEq, Repr

/-- Application of one `addTodo` call to the current canonical list. -/
def applyAdd (todos : List Todo) (c : AddCall) : List Todo :=
  addTodo todos c.input c.priority c.selectedCategory c.newCategory c.dueDate c.notes c.now

/-- A sequence of `addTodo` calls applied to the empty canonical list. -/
def runAdds (cs : List AddCall) : List Todo :=
  cs.foldl applyAdd []

/-- The `saveEdit` operation: with empty trimmed `editText` the edit is abandoned;
otherwise the todo with matching `id` gets the trimmed text. -/
def saveEdit (todos : List Todo) (id : Int) (editText : String) : List Todo :=
  if jsTrim editText = "" then todos
  else
    todos.map fun todo =>
      if todo.id = id then { todo with text := jsTrim editText } else todo

/-- The platform `Array.prototype.findIndex`; the JavaScript result `-1` is `none`. -/
def findIndex (p : α → Bool) : List α → Option Nat
  | [] => none
  | a :: l => if p a then some 0 else (findIndex p l).map (· + 1)

/-- The splice `arr.splice(i, 1)` — remove one element at index `i`. -/
def spliceRemove (l : List α) (i : Nat) : List α :=
  l.take i ++ l.drop (i + 1)

/-- The splice `arr.splice(i, 0, a)` — insert `a` at index `i` (clamped to the
length, exactly as `splice` clamps). -/
def spliceInsert (l : List α) (i : Nat) (a : α) : List α :=
  l.take i ++ a :: l.drop i

/-- The `handleDrop` operation: reorder by drag and drop.  Returns early when no item
is being dragged or either id is not found; otherwise removes the
dragged todo and reinserts it at the target's index as computed before
the removal.  The inner `none` branch is unreachable: `findIndex`
guarantees `draggedIndex` is in bounds. -/
def handleDrop (todos : List Todo) (draggedItem : Option Int) (targetId : Int) : List Todo :=
  match draggedItem with
  | none => todos
  | some draggedId =>
    match findIndex (fun todo => todo.id == draggedId) todos,
        findIndex (fun todo => todo.id == targetId) todos with
    | some draggedIndex, some targetIndex =>
      match todos[draggedIndex]? with
      | some draggedTodo => spliceInsert (spliceRemove todos draggedIndex) targetIndex draggedTodo
      | none => todos
    | _, _ => todos

/-! ## Persistence and hydration -/

/-- JSON values, for the single record persisted under the `"todos"` key. -/
inductive JsonValue where
  | null
  | bool (b : Bool)
  | num (n : Int)
  | str (s : String)
  | arr (elems : List JsonValue)
  | obj (fields : List (String × JsonValue))

/-- What `localStorage.getItem("todos")` followed by the truthiness test
and `JSON.parse` can observe, with the string domain quotiented by the
parse outcome: `absent` is a `null` read, `emptyString` is the falsy
`""`, `invalidJson` is a non-empty string on which `JSON.parse` throws,
and `parsed j` is a non-empty string parsing to the JSON value `j`. -/
inductive StoredState where
  | absent
  | emptyString
  | invalidJson
  | parsed (j : JsonValue)

/-- A task record as hydration actually reconstructs it, field by field:
`{...todo, createdAt: new Date(todo.createdAt)}` spreads whatever was
stored, so every field may be missing (`none`).  `createdAt = none`
models an invalid `Date`. -/
structure RawTodo where
  id : Option Int
  text : Option String
  completed : Option Bool
  priority : Option String
  category : Option String
  dueDate : Option String
  createdAt : Option Int
  notes : Option String
deriving DecidableEq, Repr

/-- Property read on a parsed JSON object (JSON object keys are unique). -/
def getField (fields : List (String × JsonValue)) (key : String) : Option JsonValue :=
  (fields.find? fun f => f.1 == key).map (·.2)

/-- Read a field as an integer. -/
def asNum : Option JsonValue → Option Int
  | some (.num n) => some n
  | _ => none

/-- Read a field as a string. -/
def asStr : Option JsonValue → Option String
  | some (.str s) => some s
  | _ => none

/-- Read a field as a boolean. -/
def asBool : Option JsonValue → Option Bool
  | some (.bool b) => some b
  | _ => none

/-- The per-element hydration map
`(todo) => ({ ...todo, createdAt: new Date(todo.createdAt) })`,
with the fields read at the types the component uses them.  A non-object
element spreads to an object with no own properties. -/
def decodeTodo : JsonValue → RawTodo
  | .obj fs =>
    { id := asNum (getField fs "id")
      text := asStr (getField fs "text")
      completed := asBool (getField fs "completed")
      priority := asStr (getField fs "priority")
      category := asStr (getField fs "category")
      dueDate := asStr (getField fs "dueDate")
      createdAt := asNum (getField fs "createdAt")
      notes := asStr (getField fs "notes") }
  | _ => ⟨none, none, none, none, none, none, none, none⟩

/-- Serialization `JSON.stringify` of one todo: fields in insertion order, `undefined`
fields omitted, the `createdAt` `Date` serialized through `toJSON`
(represented by its millisecond value, which the ISO string round-trip
preserves exactly). -/
def encodeTodo (t : Todo) : JsonValue :=
  .obj
    ([("id", .num t.id), ("text", .str t.text), ("completed", .bool t.completed),
        ("priority", .str (priorityToString t.priority)), ("category", .str t.category)] ++
      (match t.dueDate with
        | some s => [("dueDate", JsonValue.str s)]
        | none => []) ++
      [("createdAt", .num t.createdAt)] ++
      (match t.notes with
        | some s => [("notes", JsonValue.str s)]
        | none => []))

/-- Serialization `JSON.stringify(todos)` — the persisted array. -/
def encodeTodos (todos : List Todo) : JsonValue :=
  .arr (todos.map encodeTodo)

/-- Outcome of the hydration effect: the list it sets, or an uncaught
exception escaping the effect body. -/
inductive HydrateResult where
  | ok (todos : List RawTodo)
  | error
deriving DecidableEq, Repr

/-- The hydration `useEffect`: `getItem`, truthiness test, `JSON.parse`,
`.map` over the parsed value.  `JSON.parse` throws on an invalid string;
`.map` throws (`TypeError`) on any parsed value that is not an array. -/
def loadTodos : StoredState → HydrateResult
  | .absent => .ok []
  | .emptyString => .ok []
  | .invalidJson => .error
  | .parsed (.arr elems) => .ok (elems.map decodeTodo)
  | .parsed _ => .error

/-! ## Dates -/

/-- Parse a `"YYYY-MM-DD"` date-input string into year, month, day. -/
def parseYmd (s : String) : Option (Int × Int × Int) :=
  match s.splitOn "-" with
  | [y, m, d] =>
    match y.toNat?, m.toNat?, d.toNat? with
    | some yn, some mn, some dn =>
      if 1 ≤ mn ∧ mn ≤ 12 ∧ 1 ≤ dn ∧ dn ≤ 31 then some ((yn : Int), (mn : Int), (dn : Int))
      else none
    | _, _, _ => none
  | _ => none

/-- Days since the Unix epoch of a civil date (Gregorian calendar,
standard days-from-civil computation; the operands of the divisions are
non-negative after the era shift). -/
def daysFromCivil (y m d : Int) : Int :=
  let yAdj := if m ≤ 2 then y - 1 else y
  let era := (if 0 ≤ yAdj then yAdj else yAdj - 399) / 400
  let yoe := yAdj - era * 400
  let doy := (153 * (if 2 < m then m - 3 else m + 9) + 2) / 5 + d - 1
  let doe := yoe * 365 + yoe / 4 - yoe / 100 + doy
  era * 146097 + doe - 719468

/-- The value `new Date(s).getTime()` for a `"YYYY-MM-DD"` string: UTC midnight of
that date, in milliseconds.  Strings the date input cannot produce give
`NaN` in JavaScript and do not occur in the store; they are mapped to 0
here. -/
def dueMs (s : String) : Int :=
  match parseYmd s with
  | some (y, m, d) => daysFromCivil y m d * 86400000
  | none => 0

/-! ## The view sort -/

/-- Stable insertion: `a` passes every element strictly before it under
the comparator and lands in front of the first other element. -/
def jsSortInsert (c : α → α → Int) (a : α) : List α → List α
  | [] => [a]
  | b :: l => if c a b > 0 then b :: jsSortInsert c a l else a :: b :: l

/-- The platform `Array.prototype.sort` with comparator `c`, modelled as stable
insertion sort (ES2019 requires sort to be stable, and for a consistent
comparator all stable sorts agree). -/
def jsSort (c : α → α → Int) : List α → List α
  | [] => []
  | a :: l => jsSortInsert c a (jsSort c l)

/-- Mapping of `Ordering` to the comparator integers. -/
def orderingToInt : Ordering → Int
  | .lt => -1
  | .eq => 0
  | .gt => 1

/-- The comparator switch of `filteredAndSortedTodos`.  `localeCompare`
is modelled by code-point comparison (no claim depends on the locale
order), and `new Date(dueDate).getTime()` by `dueMs`. -/
def sortComparator (sort : SortType) (a b : Todo) : Int :=
  match sort with
  | .priority => rank b.priority - rank a.priority
  | .dueDate =>
    match a.dueDate, b.dueDate with
    | none, none => 0
    | none, some _ => 1
    | some _, none => -1
    | some x, some y => dueMs x - dueMs y
  | .alphabetical => orderingToInt (compare a.text b.text)
  | .created => b.createdAt - a.createdAt

/-- Sort key realised by the priority comparator: ascending in this key
is descending in rank. -/
def priorityKey (t : Todo) : Int := -(rank t.priority)

/-- Sort key realised by the dueDate comparator: the due time, with `⊤`
for a task without a due date (sorted after every dated task). -/
def dueKey (t : Todo) : WithTop Int :=
  match t.dueDate with
  | none => ⊤
  | some s => (dueMs s : WithTop Int)

/-- The view pipeline `filteredAndSortedTodos`: status filter, search
filter over `text` and `notes`, category filter, then the sort. -/
def filteredAndSortedTodos (todos : List Todo) (filter : FilterType)
    (searchTerm selectedCategory : String) (sort : SortType) : List Todo :=
  jsSort (sortComparator sort)
    (((todos.filter fun todo =>
          match filter with
          | .active => !todo.completed
          | .completed => todo.completed
          | .all => true).filter fun todo =>
        jsIncludes (jsToLower todo.text) (jsToLower searchTerm) ||
          (match todo.notes with
            | some n => jsIncludes (jsToLower n) (jsToLower searchTerm)
            | none => false)).filter fun todo =>
      selectedCategory == "" || todo.category == selectedCategory)

/-! ## Statistics -/

/-- The `stats` record. -/
structure Stats where
  total : Nat
  completed : Nat
  active : Nat
  overdue : Nat
deriving DecidableEq, Repr

/-- The `stats` object, derived from the canonical list; `now` is the
millisecond value of the `new Date()` the overdue test compares with. -/
def stats (todos : List Todo) (now : Int) : Stats :=
  { total := todos.length
    completed := (todos.filter fun t => t.completed).length
    active := (todos.filter fun t => !t.completed).length
    overdue :=
      (todos.filter fun t =>
          (match t.dueDate with
            | some s => decide (dueMs s < now)
            | none => false) && !t.completed).length }

/-- The completion-rate percentage
`stats.total > 0 ? (stats.completed / stats.total) * 100 : 0` (the value
driving the progress-bar width; the text display applies `Math.round` to
it).  IEEE double arithmetic is modelled by exact rationals. -/
def completionRate (s : Stats) : ℚ :=
  if 0 < s.total then ((s.completed : ℚ) / (s.total : ℚ)) * 100 else 0

/-- A todo with the given id and default field values, for concrete
instances. -/
def mkTodo (i : Int) : Todo :=
  { id := i, text := "", completed := false, priority := .medium, category := "",
    dueDate := none, createdAt := 0, notes := none }

/-! ## Lemmas about `findIndex` and splicing -/

theorem findIndex_lt_length {p : α → Bool} :
    ∀ {l : List α} {i : Nat}, findIndex p l = some i → i < l.length := by
  intro l
  induction l with
  | nil => intro i h; cases h
  | cons a l ih =>
    intro i h
    unfold findIndex at h
    by_cases hp : p a
    · rw [if_pos hp] at h
      cases h
      simp
    · rw [if_neg hp] at h
      obtain ⟨j, hj, rfl⟩ := Option.map_eq_some'.mp h
      have := ih hj
      simp only [List.length_cons]
      omega

theorem findIndex_getElem {p : α → Bool} :
    ∀ {l : List α} {i : Nat}, findIndex p l = some i → ∃ a, l[i]? = some a ∧ p a = true := by
  intro l
  induction l with
  | nil => intro i h; cases h
  | cons a l ih =>
    intro i h
    unfold findIndex at h
    by_cases hp : p a
    · rw [if_pos hp] at h
      cases h
      exact ⟨a, by simp, hp⟩
    · rw [if_neg hp] at h
      obtain ⟨j, hj, rfl⟩ := Option.map_eq_some'.mp h
      obtain ⟨b, hb, hpb⟩ := ih hj
      exact ⟨b, by simpa using hb, hpb⟩

theorem findIndex_append_cons {p : α → Bool} (x : α) (l₂ : List α) :
    ∀ l₁ : List α, (∀ b ∈ l₁, p b = false) → p x = true →
      findIndex p (l₁ ++ x :: l₂) = some l₁.length := by
  intro l₁
  induction l₁ with
  | nil => intro _ hx; simp [findIndex, hx]
  | cons a l ih =>
    intro h hx
    have ha : p a = false := h a (List.mem_cons_self a l)
    have ih' := ih (fun b hb => h b (List.mem_cons_of_mem a hb)) hx
    simp [findIndex, ha, List.append_eq, ih']

theorem getElem?_decomp {l : List α} {i : Nat} {a : α} (h : l[i]? = some a) :
    l = l.take i ++ a :: l.drop (i + 1) := by
  conv_lhs => rw [← List.take_append_drop (i + 1) l]
  rw [List.take_succ, h]
  simp

theorem spliceInsert_getElem {l : List α} {i : Nat} (a : α) (h : i ≤ l.length) :
    (spliceInsert l i a)[i]? = some a := by
  unfold spliceInsert
  have ht : (l.take i).length = i := by simp [Nat.min_eq_left h]
  rw [List.getElem?_append_right (by omega)]
  simp [ht]

theorem spliceRemove_spliceInsert {l : List α} {i : Nat} (a : α) (h : i ≤ l.length) :
    spliceRemove (spliceInsert l i a) i = l := by
  unfold spliceRemove spliceInsert
  have ht : (l.take i).length = i := by simp [Nat.min_eq_left h]
  have h3 : (l.take i ++ a :: l.drop i).take i = l.take i := List.take_left' ht
  have h4 : (l.take i ++ a :: l.drop i).drop (i + 1) = l.drop i := by
    rw [show l.take i ++ a :: l.drop i = (l.take i ++ [a]) ++ l.drop i by simp]
    exact List.drop_left' (by simp [ht])
  rw [h3, h4, List.take_append_drop]

theorem spliceInsert_spliceRemove_self {l : List α} {i : Nat} {a : α} (h : l[i]? = some a) :
    spliceInsert (spliceRemove l i) i a = l := by
  have hi : i < l.length := by
    rcases List.getElem?_eq_some.mp h with ⟨hlt, _⟩
    exact hlt
  unfold spliceRemove spliceInsert
  have ht : (l.take i).length = i := by simp [Nat.min_eq_left (Nat.le_of_lt hi)]
  have h3 : (l.take i ++ l.drop (i + 1)).take i = l.take i := List.take_left' ht
  have h4 : (l.take i ++ l.drop (i + 1)).drop i = l.drop (i + 1) := List.drop_left' ht
  rw [h3, h4, ← getElem?_decomp h]

theorem spliceRemove_length {l : List α} {i : Nat} (h : i < l.length) :
    (spliceRemove l i).length = l.length - 1 := by
  unfold spliceRemove
  simp only [List.length_append, List.length_take, List.length_drop]
  omega

theorem nodup_spliceRemove_ne {l : List α} {i : Nat} {a : α} (f : α → β)
    (hnd : (l.map f).Nodup) (h : l[i]? = some a) :
    ∀ b ∈ spliceRemove l i, f b ≠ f a := by
  have hdec := getElem?_decomp h
  rw [hdec, List.map_append, List.map_cons, List.nodup_append] at hnd
  obtain ⟨_, h2, hdisj⟩ := hnd
  rw [List.nodup_cons] at h2
  intro b hb hfb
  rcases List.mem_append.mp hb with hbt | hbd
  · exact hdisj (List.mem_map_of_mem f hbt) (by rw [hfb]; exact List.mem_cons_self _ _)
  · exact h2.1 (by rw [← hfb]; exact List.mem_map_of_mem f hbd)

/-- C2 (counterexample): on the canonical order `[1, 2, 3, 4]`, dragging
task 3 onto task 1 does not produce the order `[2, 3, 1, 4]` that the
specification's example states. -/
theorem handleDrop_example_counterexample :
    (handleDrop [mkTodo 1, mkTodo 2, mkTodo 3, mkTodo 4] (some 3) 1).map Todo.id ≠
      [2, 3, 1, 4] := by
  decide

/-- C2 (amended): dragging task 3 onto task 1 on the canonical order
`[1, 2, 3, 4]` yields `[3, 1, 2, 4]`: task 3 is removed and reinserted
at index 0, the index task 1 occupied before the removal. -/
theorem handleDrop_example_amended :
    (handleDrop [mkTodo 1, mkTodo 2, mkTodo 3, mkTodo 4] (some 3) 1).map Todo.id =
      [3, 1, 2, 4] := by
  decide

/-- C3: reorder semantics of `handleDrop` on a canonical list (pairwise
distinct ids).  If either id is absent or the two ids are equal, the
list is unchanged.  Otherwise, writing `d` and `t` for the indices of
the dragged and the target task before the removal: the element at the
target's pre-removal index `t` of the result is the dragged task; the
result with position `t` spliced out equals the input with position `d`
spliced out (every other task keeps its relative order); and the dragged
task's final index is `t` — which is the target's pre-removal index
when the dragged task preceded the target, and equals the target's
post-removal index otherwise (removal at `d > t` does not shift `t`). -/
theorem handleDrop_spec (todos : List Todo) (draggedId targetId : Int)
    (hnd : (todos.map Todo.id).Nodup) :
    ((findIndex (fun x => x.id == draggedId) todos = none ∨
        findIndex (fun x => x.id == targetId) todos = none ∨ draggedId = targetId) →
      handleDrop todos (some draggedId) targetId = todos) ∧
    (∀ d t, findIndex (fun x => x.id == draggedId) todos = some d →
      findIndex (fun x => x.id == targetId) todos = some t →
      draggedId ≠ targetId →
      (handleDrop todos (some draggedId) targetId)[t]? = todos[d]? ∧
      spliceRemove (handleDrop todos (some draggedId) targetId) t = spliceRemove todos d ∧
      findIndex (fun x => x.id == draggedId) (handleDrop todos (some draggedId) targetId) =
        some t) := by
  constructor
  · rintro (hd | ht | heq)
    · simp [handleDrop, hd]
    · cases hfd : findIndex (fun x => x.id == draggedId) todos with
      | none => simp [handleDrop, hfd]
      | some d => simp [handleDrop, hfd, ht]
    · subst heq
      cases hfd : findIndex (fun x => x.id == draggedId) todos with
      | none => simp [handleDrop, hfd]
      | some d =>
        obtain ⟨x, hx, _⟩ := findIndex_getElem hfd
        simp only [handleDrop, hfd, hx]
        exact spliceInsert_spliceRemove_self hx
  · intro d t hd ht hne
    obtain ⟨x, hx, hpx⟩ := findIndex_getElem hd
    have hdlen := findIndex_lt_length hd
    have htlen := findIndex_lt_length ht
    have hR : handleDrop todos (some draggedId) targetId =
        spliceInsert (spliceRemove todos d) t x := by
      simp [handleDrop, hd, ht, hx]
    have hlen' : (spliceRemove todos d).length = todos.length - 1 := spliceRemove_length hdlen
    have htle : t ≤ (spliceRemove todos d).length := by omega
    refine ⟨?_, ?_, ?_⟩
    · rw [hR, spliceInsert_getElem x htle, hx]
    · rw [hR, spliceRemove_spliceInsert x htle]
    · rw [hR]
      have hne' : ∀ b ∈ spliceRemove todos d, (b.id == draggedId) = false := by
        intro b hb
        have hbx : b.id ≠ x.id := nodup_spliceRemove_ne Todo.id hnd hx b hb
        have hxid : x.id = draggedId := by simpa using hpx
        simp [hxid ▸ hbx]
      have hsub : ∀ b ∈ (spliceRemove todos d).take t, (b.id == draggedId) = false :=
        fun b hb => hne' b (List.take_subset t _ hb)
      have := findIndex_append_cons x ((spliceRemove todos d).drop t)
        ((spliceRemove todos d).take t) hsub hpx
      unfold spliceInsert
      rw [this]
      simp [Nat.min_eq_left htle]

/-- Witness for `handleDrop_spec`: dragging task 1 onto task 3 in
`[1, 2, 3, 4]` puts task 1 at index 2, the index task 3 held before the
removal. -/
theorem handleDrop_spec_witness :
    (handleDrop [mkTodo 1, mkTodo 2, mkTodo 3, mkTodo 4] (some 1) 3)[2]? = some (mkTodo 1) ∧
    findIndex (fun x => x.id == 1)
        (handleDrop [mkTodo 1, mkTodo 2, mkTodo 3, mkTodo 4] (some 1) 3) = some 2 := by
  have h := (handleDrop_spec [mkTodo 1, mkTodo 2, mkTodo 3, mkTodo 4] 1 3 (by decide)).2
    0 2 (by decide) (by decide) (by decide)
  exact ⟨h.1.trans (by decide), h.2.2⟩

/-! ## Hydration and persistence -/

/-- C1 (counterexample): a stored string on which `JSON.parse` throws
does not hydrate to the empty list — the exception escapes the effect. -/
theorem loadTodos_counterexample : loadTodos .invalidJson ≠ .ok [] := by
  decide

/-- C1 (amended): hydration yields the empty list when no persisted
value is present (and for the falsy empty string); a stored string that
is not valid JSON, or that parses to a non-array JSON value, makes
hydration raise an error instead; a stored JSON array yields one task
record per element, with no validation of the element's shape. -/
theorem loadTodos_amended :
    loadTodos .absent = .ok [] ∧
    loadTodos .emptyString = .ok [] ∧
    loadTodos .invalidJson = .error ∧
    (∀ j : JsonValue, (∀ elems, j ≠ .arr elems) → loadTodos (.parsed j) = .error) ∧
    (∀ elems : List JsonValue, loadTodos (.parsed (.arr elems)) = .ok (elems.map decodeTodo)) := by
  refine ⟨rfl, rfl, rfl, ?_, fun elems => rfl⟩
  intro j h
  cases j with
  | arr elems => exact absurd rfl (h elems)
  | null => rfl
  | bool b => rfl
  | num n => rfl
  | str s => rfl
  | obj fields => rfl

/-- Witness for `loadTodos_amended`: the stored string `"5"` parses to a
JSON number, which is not an array, so hydration errors. -/
theorem loadTodos_amended_witness : loadTodos (.parsed (.num 5)) = .error :=
  loadTodos_amended.2.2.2.1 (.num 5) fun _ h => nomatch h

/-- Per-element round trip: decoding the serialized form of a todo
recovers every field, with `priority` as its string form and the
timestamp at millisecond precision. -/
theorem decodeTodo_encodeTodo (t : Todo) :
    decodeTodo (encodeTodo t) =
      { id := some t.id, text := some t.text, completed := some t.completed,
        priority := some (priorityToString t.priority), category := some t.category,
        dueDate := t.dueDate, createdAt := some t.createdAt, notes := t.notes } := by
  cases t with
  | mk id text completed priority category dueDate createdAt notes =>
    cases dueDate <;> cases notes <;> rfl

/-- C6: hydrating from the persisted serialization of a canonical list
`L` reproduces `L` element by element and in order, in the fields `id`,
`text`, `completed`, `priority`, `category`, `dueDate` and `createdAt`
(and `notes`), to the precision the format supports: the timestamp at
milliseconds, the priority as its string form. -/
theorem persist_roundtrip (L : List Todo) :
    loadTodos (.parsed (encodeTodos L)) =
      .ok (L.map fun t =>
        { id := some t.id, text := some t.text, completed := some t.completed,
          priority := some (priorityToString t.priority), category := some t.category,
          dueDate := t.dueDate, createdAt := some t.createdAt, notes := t.notes }) := by
  simp only [loadTodos, encodeTodos, List.map_map]
  congr 1
  exact List.map_congr_left fun t _ => decodeTodo_encodeTodo t

/-! ## Mutations -/

/-- C10: saving an edit whose id matches no task in the canonical list
leaves the list unchanged (for either branch of the trimmed-text test):
the unknown-id no-op behavior of the other mutations also holds for
`saveEdit`. -/
theorem saveEdit_unknown_id (todos : List Todo) (id : Int) (editText : String)
    (h : ∀ t ∈ todos, t.id ≠ id) : saveEdit todos id editText = todos := by
  unfold saveEdit
  split
  · rfl
  · revert h
    induction todos with
    | nil => intro _; rfl
    | cons a l ih =>
      intro h
      simp only [List.map_cons]
      rw [if_neg (h a (List.mem_cons_self a l)), ih fun t ht => h t (List.mem_cons_of_mem a ht)]

/-- Witness for `saveEdit_unknown_id`: editing id 2 in a list holding
only id 1 changes nothing. -/
theorem saveEdit_unknown_id_witness : saveEdit [mkTodo 1] 2 "new" = [mkTodo 1] :=
  saveEdit_unknown_id [mkTodo 1] 2 "new" (by decide)

/-- C5: `addTodo` with blank trimmed text leaves the canonical list
unchanged; otherwise exactly one new task carrying the trimmed text and
`completed = false` is prepended, with every existing task (and their
order) unchanged. -/
theorem addTodo_spec (todos : List Todo) (input : String) (priority : Priority)
    (selectedCategory newCategory dueDate notes : String) (now : Int) :
    (jsTrim input = "" →
      addTodo todos input priority selectedCategory newCategory dueDate notes now = todos) ∧
    (jsTrim input ≠ "" →
      ∃ newTask : Todo,
        addTodo todos input priority selectedCategory newCategory dueDate notes now =
          newTask :: todos ∧
        newTask.text = jsTrim input ∧ newTask.completed = false) := by
  constructor
  · intro h
    simp [addTodo, h]
  · intro h
    exact ⟨_, by rw [addTodo, if_neg h], rfl, rfl⟩

/-- Witness for `addTodo_spec`: a whitespace-only input is rejected; the
input `" hi "` creates exactly one task, carrying the trimmed text and
`completed = false`. -/
theorem addTodo_spec_witness :
    addTodo [] "  " Priority.medium "" "" "" "" 7 = [] ∧
    (addTodo [] " hi " Priority.medium "" "" "" "" 7).map Todo.text = [jsTrim " hi "] ∧
    (addTodo [] " hi " Priority.medium "" "" "" "" 7).map Todo.completed = [false] := by
  obtain ⟨t, ht, htext, hcomp⟩ :=
    (addTodo_spec [] " hi " Priority.medium "" "" "" "" 7).2 (by decide)
  exact ⟨(addTodo_spec [] "  " Priority.medium "" "" "" "" 7).1 (by decide),
    by rw [ht]; simp [htext], by rw [ht]; simp [hcomp]⟩

/-- Ids of a run of successful `addTodo` calls over any initial list:
each call prepends a task whose id is that call's clock value. -/
theorem foldl_applyAdd_ids (cs : List AddCall) :
    ∀ init : List Todo, (∀ c ∈ cs, jsTrim c.input ≠ "") →
      (cs.foldl applyAdd init).map Todo.id =
        (cs.map AddCall.now).reverse ++ init.map Todo.id := by
  induction cs with
  | nil => intro init _; simp
  | cons c cs ih =>
    intro init h
    have hc : jsTrim c.input ≠ "" := h c (List.mem_cons_self c cs)
    have hstep : applyAdd init c =
        { id := c.now, text := jsTrim c.input, completed := false, priority := c.priority,
          category := if c.selectedCategory = "" then c.newCategory else c.selectedCategory,
          dueDate := if c.dueDate = "" then none else some c.dueDate,
          createdAt := c.now,
          notes := if c.notes = "" then none else some c.notes } :: init := by
      rw [applyAdd, addTodo, if_neg hc]
    rw [List.foldl_cons, ih (applyAdd init c) fun b hb => h b (List.mem_cons_of_mem c hb),
      hstep]
    simp

/-- C4 (counterexample): two `addTodo` calls with non-blank text made in
the same millisecond (`Date.now()` returns 0 twice) produce two tasks
with the same id, so the ids of the canonical list are not pairwise
distinct. -/
theorem runAdds_counterexample :
    jsTrim "a" ≠ "" ∧ jsTrim "b" ≠ "" ∧
    ¬ ((runAdds [⟨"a", .medium, "", "", "", "", 0⟩,
        ⟨"b", .medium, "", "", "", "", 0⟩]).map Todo.id).Nodup := by
  decide

/-- C4 (amended): for every sequence of `addTodo` calls whose text is
non-empty after trimming, the canonical list's length equals the number
of calls (unconditionally); and the ids are pairwise distinct provided
the `Date.now()` values observed by the calls are pairwise distinct
(the id is exactly that clock value, so calls in the same millisecond
collide). -/
theorem runAdds_amended (cs : List AddCall) (hne : ∀ c ∈ cs, jsTrim c.input ≠ "") :
    (runAdds cs).length = cs.length ∧
    ((cs.map AddCall.now).Nodup → ((runAdds cs).map Todo.id).Nodup) := by
  have hids := foldl_applyAdd_ids cs [] hne
  rw [runAdds] at *
  constructor
  · have := congrArg List.length hids
    simpa using this
  · intro hnow
    rw [hids]
    simpa using hnow

/-- Witness for `runAdds_amended`: two adds in distinct milliseconds
give a list of length 2 with distinct ids. -/
theorem runAdds_amended_witness :
    (runAdds [⟨"a", .medium, "", "", "", "", 0⟩, ⟨"b", .medium, "", "", "", "", 1⟩]).length = 2 ∧
    ((runAdds [⟨"a", .medium, "", "", "", "", 0⟩,
        ⟨"b", .medium, "", "", "", "", 1⟩]).map Todo.id).Nodup :=
  have h := runAdds_amended [⟨"a", .medium, "", "", "", "", 0⟩,
    ⟨"b", .medium, "", "", "", "", 1⟩] (by decide)
  ⟨h.1, h.2 (by decide)⟩

/-! ## The view sort: stability and order -/

theorem jsSortInsert_perm (c : α → α → Int) (a : α) (l : List α) :
    List.Perm (jsSortInsert c a l) (a :: l) := by
  induction l with
  | nil => exact List.Perm.refl _
  | cons b l ih =>
    unfold jsSortInsert
    split
    · exact (ih.cons b).trans (List.Perm.swap a b l)
    · exact List.Perm.refl _

theorem jsSort_perm (c : α → α → Int) (l : List α) : List.Perm (jsSort c l) l := by
  induction l with
  | nil => exact List.Perm.refl _
  | cons a l ih => exact (jsSortInsert_perm c a (jsSort c l)).trans (ih.cons a)

theorem jsSortInsert_pairwise {β : Type} {c : α → α → Int} {k : α → β} [LinearOrder β]
    (H : ∀ a b, c a b ≤ 0 ↔ k a ≤ k b) (a : α) {l : List α}
    (hl : l.Pairwise fun x y => c x y ≤ 0) :
    (jsSortInsert c a l).Pairwise fun x y => c x y ≤ 0 := by
  induction l with
  | nil => simp [jsSortInsert]
  | cons b l ih =>
    rw [List.pairwise_cons] at hl
    obtain ⟨hb, hl'⟩ := hl
    unfold jsSortInsert
    split
    · rename_i hab
      rw [List.pairwise_cons]
      refine ⟨?_, ih hl'⟩
      intro y hy
      rcases List.mem_cons.mp ((jsSortInsert_perm c a l).mem_iff.mp hy) with hya | hyl
      · have hnab : ¬ c a b ≤ 0 := by omega
        have hk : ¬ k a ≤ k b := fun hk => hnab ((H a b).mpr hk)
        rw [hya]
        exact (H b a).mpr (le_of_not_le hk)
      · exact hb y hyl
    · rename_i hab
      have hab' : c a b ≤ 0 := by omega
      rw [List.pairwise_cons]
      refine ⟨?_, List.pairwise_cons.mpr ⟨hb, hl'⟩⟩
      intro y hy
      rcases List.mem_cons.mp hy with rfl | hyl
      · exact hab'
      · exact (H a y).mpr (le_trans ((H a b).mp hab') ((H b y).mp (hb y hyl)))

theorem jsSort_pairwise {β : Type} {c : α → α → Int} {k : α → β} [LinearOrder β]
    (H : ∀ a b, c a b ≤ 0 ↔ k a ≤ k b) (l : List α) :
    (jsSort c l).Pairwise fun x y => c x y ≤ 0 := by
  induction l with
  | nil => simp [jsSort]
  | cons a l ih => exact jsSortInsert_pairwise H a ih

theorem jsSortInsert_filter_pos {β : Type} {c : α → α → Int} {k : α → β} [LinearOrder β]
    (H : ∀ a b, c a b ≤ 0 ↔ k a ≤ k b) (q : α → Bool) {a : α}
    (hqa : q a = true) (hcls : ∀ x, q x = true → k x = k a) (l : List α) :
    (jsSortInsert c a l).filter q = a :: l.filter q := by
  induction l with
  | nil => simp [jsSortInsert, hqa]
  | cons b l ih =>
    unfold jsSortInsert
    split
    · rename_i hab
      have hqb : q b = false := by
        cases hqb : q b
        · rfl
        · exact absurd ((H a b).mpr (le_of_eq (hcls b hqb).symm)) (by omega)
      simp [List.filter_cons, hqb, ih]
    · simp [List.filter_cons, hqa]

theorem jsSortInsert_filter_neg {c : α → α → Int} (q : α → Bool) {a : α}
    (hqa : q a = false) (l : List α) :
    (jsSortInsert c a l).filter q = l.filter q := by
  induction l with
  | nil => simp [jsSortInsert, hqa]
  | cons b l ih =>
    unfold jsSortInsert
    split
    · simp [List.filter_cons, ih]
    · simp [List.filter_cons, hqa]

theorem jsSort_filter_stable {β : Type} {c : α → α → Int} {k : α → β} [LinearOrder β]
    (H : ∀ a b, c a b ≤ 0 ↔ k a ≤ k b) (q : α → Bool)
    (hcls : ∀ x y, q x = true → q y = true → k x = k y) (l : List α) :
    (jsSort c l).filter q = l.filter q := by
  induction l with
  | nil => rfl
  | cons a l ih =>
    show (jsSortInsert c a (jsSort c l)).filter q = _
    cases hqa : q a
    · rw [jsSortInsert_filter_neg q hqa, ih, List.filter_cons, hqa]
      simp
    · rw [jsSortInsert_filter_pos H q hqa (fun x hx => hcls x a hx hqa), ih,
        List.filter_cons, hqa]
      simp

/-- With no status filter, an empty search term and no category
selected, the view pipeline is exactly the sort of the canonical list. -/
theorem filteredAndSortedTodos_neutral (l : List Todo) (s : SortType) :
    filteredAndSortedTodos l .all "" "" s = jsSort (sortComparator s) l := by
  unfold filteredAndSortedTodos
  have h0 : jsToLower "" = "" := by decide
  have hinc : ∀ str : String, jsIncludes str (jsToLower "") = true := by
    intro str
    rw [h0]
    show containsChars str.data [] = true
    cases str.data <;> simp [containsChars, startsWithChars]
  simp [hinc]

/-- The priority comparator orders ascending in `priorityKey`. -/
theorem sortComparator_priority_key (a b : Todo) :
    sortComparator .priority a b ≤ 0 ↔ priorityKey a ≤ priorityKey b := by
  simp only [sortComparator, priorityKey]
  omega

/-- The dueDate comparator orders ascending in `dueKey`. -/
theorem sortComparator_dueDate_key (a b : Todo) :
    sortComparator .dueDate a b ≤ 0 ↔ dueKey a ≤ dueKey b := by
  cases ha : a.dueDate with
  | none =>
    cases hb : b.dueDate with
    | none => simp [sortComparator, dueKey, ha, hb]
    | some y =>
      simp only [sortComparator, dueKey, ha, hb]
      constructor
      · intro h; exact absurd h (by omega)
      · intro h; exact absurd h (by simp)
  | some x =>
    cases hb : b.dueDate with
    | none => simp [sortComparator, dueKey, ha, hb, le_top]
    | some y => simp [sortComparator, dueKey, ha, hb, sub_nonpos, WithTop.coe_le_coe]

/-- C7: sorting the view by priority orders tasks descending by the
rank `{high: 3, medium: 2, low: 1}` (pairwise, every earlier task has
rank at least the later one's); it permutes the input; tasks of equal
priority keep their relative input order (the subsequence of each
priority class is unchanged); and in particular an input
`[A (high), B (medium), C (high)]` sorts to `[A, C, B]`. -/
theorem sortByPriority_spec (l : List Todo) :
    List.Pairwise (fun a b => rank b.priority ≤ rank a.priority)
      (filteredAndSortedTodos l .all "" "" .priority) ∧
    List.Perm (filteredAndSortedTodos l .all "" "" .priority) l ∧
    (∀ p : Priority,
      (filteredAndSortedTodos l .all "" "" .priority).filter (fun t => t.priority == p) =
        l.filter (fun t => t.priority == p)) ∧
    (∀ A B C : Todo, A.priority = .high → B.priority = .medium → C.priority = .high →
      filteredAndSortedTodos [A, B, C] .all "" "" .priority = [A, C, B]) := by
  simp only [filteredAndSortedTodos_neutral]
  refine ⟨?_, jsSort_perm _ l, ?_, ?_⟩
  · refine (jsSort_pairwise sortComparator_priority_key l).imp ?_
    intro a b h
    simp only [sortComparator] at h
    omega
  · intro p
    refine jsSort_filter_stable sortComparator_priority_key (fun t => t.priority == p) ?_ l
    intro x y hx hy
    have hx' : x.priority = p := by simpa using hx
    have hy' : y.priority = p := by simpa using hy
    simp [priorityKey, hx', hy']
  · intro A B C hA hB hC
    simp [jsSort, jsSortInsert, sortComparator, hA, hB, hC, rank]

/-- C8: sorting the view by dueDate orders the dated tasks ascending by
their due time (pairwise); no task without a due date precedes a dated
task (pairwise, after a no-due-date task everything is without a due
date); it permutes the input; and the tasks without a due date keep
their relative input order (the no-due-date subsequence is unchanged). -/
theorem sortByDueDate_spec (l : List Todo) :
    List.Pairwise
      (fun a b => ∀ x y, a.dueDate = some x → b.dueDate = some y → dueMs x ≤ dueMs y)
      (filteredAndSortedTodos l .all "" "" .dueDate) ∧
    List.Pairwise (fun a b => a.dueDate = none → b.dueDate = none)
      (filteredAndSortedTodos l .all "" "" .dueDate) ∧
    List.Perm (filteredAndSortedTodos l .all "" "" .dueDate) l ∧
    (filteredAndSortedTodos l .all "" "" .dueDate).filter (fun t => t.dueDate.isNone) =
      l.filter (fun t => t.dueDate.isNone) := by
  simp only [filteredAndSortedTodos_neutral]
  have hpw := jsSort_pairwise sortComparator_dueDate_key l
  refine ⟨hpw.imp ?_, hpw.imp ?_, jsSort_perm _ l, ?_⟩
  · intro a b h x y hx hy
    simp only [sortComparator, hx, hy] at h
    omega
  · intro a b h ha
    cases hb : b.dueDate with
    | none => rfl
    | some y =>
      simp only [sortComparator, ha, hb] at h
      exact absurd h (by omega)
  · refine jsSort_filter_stable sortComparator_dueDate_key (fun t => t.dueDate.isNone) ?_ l
    intro x y hx hy
    have hx' : x.dueDate = none := by simpa using hx
    have hy' : y.dueDate = none := by simpa using hy
    simp [dueKey, hx', hy']

/-- Witness for `sortByPriority_spec`: the three-task stability example
at concrete tasks. -/
theorem sortByPriority_spec_witness :
    filteredAndSortedTodos
        [{ mkTodo 1 with priority := .high }, { mkTodo 2 with priority := .medium },
          { mkTodo 3 with priority := .high }] .all "" "" .priority =
      [{ mkTodo 1 with priority := .high }, { mkTodo 3 with priority := .high },
        { mkTodo 2 with priority := .medium }] :=
  (sortByPriority_spec []).2.2.2 { mkTodo 1 with priority := .high }
    { mkTodo 2 with priority := .medium } { mkTodo 3 with priority := .high } rfl rfl rfl

/-! ## Statistics -/

theorem length_filter_add_length_filter_not (p : α → Bool) (l : List α) :
    (l.filter p).length + (l.filter fun a => !p a).length = l.length := by
  induction l with
  | nil => rfl
  | cons a l ih => cases hpa : p a <;> simp [List.filter_cons, hpa] <;> omega

/-- C9: the statistics are derived from the canonical list: `total` is
its length, `completed` counts the completed tasks, `active` is
`total - completed`, `overdue` counts the tasks that are not completed
and have a due date strictly before now, and the completion rate is
`100 * completed / total` as a rational percentage — which is `0` when
`total = 0` (in Lean, division by zero yields zero, matching the
guarded `0` branch of the rendering). -/
theorem stats_spec (l : List Todo) (now : Int) :
    (stats l now).total = l.length ∧
    (stats l now).completed = l.countP (fun t => t.completed) ∧
    (stats l now).active = (stats l now).total - (stats l now).completed ∧
    (stats l now).overdue = l.countP (fun t =>
      !t.completed &&
        (match t.dueDate with | some s => decide (dueMs s < now) | none => false)) ∧
    completionRate (stats l now) =
      100 * (l.countP (fun t => t.completed) : ℚ) / (l.length : ℚ) := by
  refine ⟨rfl, ?_, ?_, ?_, ?_⟩
  · rw [List.countP_eq_length_filter]
    rfl
  · show (l.filter fun t => !t.completed).length =
      l.length - (l.filter fun t => t.completed).length
    have := length_filter_add_length_filter_not (fun t : Todo => t.completed) l
    omega
  · rw [List.countP_eq_length_filter]
    show (l.filter _).length = (l.filter _).length
    congr 1
    refine List.filter_congr ?_
    intro t _
    exact Bool.and_comm _ _
  · unfold completionRate
    by_cases h : 0 < (stats l now).total
    · rw [if_pos h, List.countP_eq_length_filter]
      show ((l.filter fun t => t.completed).length : ℚ) / (l.length : ℚ) * 100 =
        100 * ((l.filter fun t => t.completed).length : ℚ) / (l.length : ℚ)
      ring
    · rw [if_neg h]
      have h0 : l.length = 0 := by
        simp only [stats] at h
        omega
      rw [h0]
      simp
